import Mathlib

/-!
Verification of the query-structure validation and field-name normalization
logic of src/dataset_generation/claude_query_executor.py.

The Python functions modelled here are validate_and_fix_query,
normalize_field_names (with its inner helpers convert_to_snake_case and
fix_fields), is_valid_query_structure, and the composite validation pipeline
inside generate_query.  JSON-like payloads (the values produced by
json.loads) are modelled by the inductive type Value below; Python dicts are
modelled as insertion-ordered association lists, and dict assignment
new_dict[k] = v is modelled by dictInsert, which overwrites in place when the
key is already present and appends otherwise.  Python strings are modelled at
the character-list level: value[1:] is strTail, the f-string prepending the
dollar sigil is mkDollar, str.startswith applied to the sigil is
startsDollar, and str.lower on the ASCII range is lowerChar.
-/

namespace ClaudeQueryExecutor

/-- A parsed JSON-like payload: the result of json.loads in the Python code.
Maps keep insertion order, as Python dicts do. -/
inductive Value where
  | str (s : String)
  | num (n : Int)
  | bool (b : Bool)
  | null
  | arr (l : List Value)
  | obj (m : List (String × Value))

/-- The two error conditions of the normalization pipeline:
invalidQueryFormat models the ValueError "Query format not recognized"
raised by validate_and_fix_query, and invalidQueryStructure models the
ValueError "Invalid query structure after fixes" raised by generate_query. -/
inductive QueryError where
  | invalidQueryFormat
  | invalidQueryStructure
deriving DecidableEq

/-- Python: key in dict (membership test on a dict). -/
def hasKey (m : List (String × Value)) (k : String) : Bool :=
  m.any (fun p => p.1 == k)

/-- Python: dict subscript / dict.get, returning the value stored at k. -/
def alistGet {α : Type} : List (String × α) → String → Option α
  | [], _ => none
  | (k', v) :: rest, k => if k' = k then some v else alistGet rest k

/-- Python: new_dict[k] = v on an insertion-ordered dict: overwrite in place
when k is present, append otherwise. -/
def dictInsert (m : List (String × Value)) (k : String) (v : Value) :
    List (String × Value) :=
  if m.any (fun p => p.1 == k) then
    m.map (fun p => if p.1 == k then (k, v) else p)
  else m ++ [(k, v)]

/-- validate_and_fix_query from claude_query_executor.py: wrap a bare list
into an aggregate shape; wrap a dict containing a stage-operator key among
"$match", "$group", "$sort" into a single-stage pipeline; return any other
dict unchanged; raise ValueError on every non-dict non-list payload. -/
def validate_and_fix_query (query : Value) : Except QueryError Value :=
  match query with
  | .arr l =>
      .ok (.obj [("aggregate", .bool true), ("pipeline", .arr l)])
  | .obj m =>
      if hasKey m "$match" || hasKey m "$group" || hasKey m "$sort" then
        .ok (.obj [("aggregate", .bool true), ("pipeline", .arr [.obj m])])
      else if hasKey m "aggregate" && hasKey m "pipeline" then
        .ok (.obj m)
      else
        .ok (.obj m)
  | _ => .error .invalidQueryFormat

/-- ASCII uppercase letter, the character class [A-Z] of the Python regexes. -/
def isUpperAscii (c : Char) : Bool := 65 ≤ c.toNat && c.toNat ≤ 90

/-- ASCII lowercase letter, the character class [a-z] of the Python regexes. -/
def isLowerAscii (c : Char) : Bool := 97 ≤ c.toNat && c.toNat ≤ 122

/-- ASCII digit, the character class [0-9] of the Python regexes. -/
def isDigitAscii (c : Char) : Bool := 48 ≤ c.toNat && c.toNat ≤ 57

/-- str.lower on one character, restricted to the ASCII range that the
procurement field names use. -/
def lowerChar (c : Char) : Char :=
  if 65 ≤ c.toNat ∧ c.toNat ≤ 90 then Char.ofNat (c.toNat + 32) else c

/-- First substitution of convert_to_snake_case:
re.sub of the pattern (.)([A-Z][a-z]+) with backreference \1_\2, scanning
left to right over non-overlapping matches.  The dot matches any character
except a newline; the plus is greedy, captured here by takeWhile.  The
recursion is driven by a fuel argument so that the definition is structural
and computes by reduction; every step consumes at least one character, so
any fuel of at least the length of the list gives the substitution. -/
def camelPass1Fuel : Nat → List Char → List Char
  | 0, l => l
  | _ + 1, [] => []
  | _ + 1, [c] => [c]
  | fuel + 1, c0 :: c1 :: rest =>
      if (c0 != '\n') && isUpperAscii c1 &&
          (match rest with
           | c2 :: _ => isLowerAscii c2
           | [] => false) then
        c0 :: '_' :: c1 ::
          (rest.takeWhile isLowerAscii ++
            camelPass1Fuel fuel (rest.dropWhile isLowerAscii))
      else
        c0 :: camelPass1Fuel fuel (c1 :: rest)

/-- The first substitution, run with enough fuel for the whole list. -/
def camelPass1 (l : List Char) : List Char := camelPass1Fuel l.length l

/-- Second substitution of convert_to_snake_case:
re.sub of the pattern ([a-z0-9])([A-Z]) with backreference \1_\2. -/
def camelPass2 : List Char → List Char
  | [] => []
  | [c] => [c]
  | c0 :: c1 :: rest =>
      if (isLowerAscii c0 || isDigitAscii c0) && isUpperAscii c1 then
        c0 :: '_' :: c1 :: camelPass2 rest
      else
        c0 :: camelPass2 (c1 :: rest)

/-- convert_to_snake_case from normalize_field_names: the two regex
substitutions followed by str.lower. -/
def convert_to_snake_case (s : String) : String :=
  String.mk ((camelPass2 (camelPass1 s.data)).map lowerChar)

/-- The field_mappings table of normalize_field_names, in source order. -/
def field_mappings : List (String × String) :=
  [("creationDate", "creation_date"),
   ("purchaseDate", "purchase_date"),
   ("fiscalYear", "fiscal_year"),
   ("lpaNumber", "lpa_number"),
   ("purchaseOrderNumber", "purchase_order_number"),
   ("requisitionNumber", "requisition_number"),
   ("acquisitionType", "acquisition_type"),
   ("subAcquisitionType", "sub_acquisition_type"),
   ("acquisitionMethod", "acquisition_method"),
   ("subAcquisitionMethod", "sub_acquisition_method"),
   ("departmentName", "department_name"),
   ("supplierCode", "supplier_code"),
   ("supplierName", "supplier_name"),
   ("supplierQualifications", "supplier_qualifications"),
   ("supplierZipCode", "supplier_zip_code"),
   ("itemName", "item_name"),
   ("itemDescription", "item_description"),
   ("unitPrice", "unit_price"),
   ("totalPrice", "total_price"),
   ("classificationCodes", "classification_codes"),
   ("normalizedUnspsc", "normalized_unspsc"),
   ("commodityTitle", "commodity_title"),
   ("classTitle", "class_title"),
   ("familyTitle", "family_title"),
   ("segmentTitle", "segment_title")]

/-- Python: field_mappings.get(key, convert_to_snake_case(key)). -/
def mapKeyName (k : String) : String :=
  match alistGet field_mappings k with
  | some v => v
  | none => convert_to_snake_case k

/-- str.startswith applied to the dollar sigil: the first character is $. -/
def startsDollar (s : String) : Bool :=
  match s.data with
  | [] => false
  | c :: _ => c == '$'

/-- Python: s[1:], dropping the first character. -/
def strTail (s : String) : String := String.mk s.data.tail

/-- The f-string reattaching the dollar sigil in fix_fields. -/
def mkDollar (s : String) : String := String.mk ('$' :: s.data)

/-- Key handling in fix_fields: operator keys beginning with the sigil are
kept verbatim, every other key goes through field_mappings.get with the
generic camelCase conversion as default. -/
def fixKey (k : String) : String :=
  if startsDollar k then k else mapKeyName k

mutual

/-- fix_fields from normalize_field_names: recursively rebuild every dict,
renaming keys with fixKey and rewriting string values that begin with the
sigil; recurse into lists element-wise; return every other value unchanged.
In the Python source a sigil string value is rewritten and then passed to
fix_fields, which returns strings unchanged, so the rewrite is inlined here
in the dict branch. -/
def fix_fields : Value → Value
  | .str s => .str s
  | .num n => .num n
  | .bool b => .bool b
  | .null => .null
  | .arr l => .arr (fixArr l)
  | .obj m => .obj (fixObj m [])

/-- The list comprehension of fix_fields over list payloads. -/
def fixArr : List Value → List Value
  | [] => []
  | v :: rest => fix_fields v :: fixArr rest

/-- The dict loop of fix_fields: iterate over the entries in order,
building new_dict by assignment. -/
def fixObj : List (String × Value) → List (String × Value) → List (String × Value)
  | [], acc => acc
  | (k, v) :: rest, acc =>
      fixObj rest (dictInsert acc (fixKey k)
        (match v with
         | .str s => .str (if startsDollar s then mkDollar (mapKeyName (strTail s)) else s)
         | w => fix_fields w))

end

/-- The transformation fix_fields applies to one dict value: sigil strings
get the sigil-stripped rename, everything else is processed recursively. -/
def entryFix (v : Value) : Value :=
  match v with
  | .str s => .str (if startsDollar s then mkDollar (mapKeyName (strTail s)) else s)
  | w => fix_fields w

/-- normalize_field_names from claude_query_executor.py: it builds the
mapping table and the helpers and returns fix_fields applied to the query. -/
def normalize_field_names (query : Value) : Value := fix_fields query

/-- isinstance(v, bool) on a payload value. -/
def isBoolValue : Value → Bool
  | .bool _ => true
  | _ => false

/-- isinstance(v, list) on a payload value. -/
def isArrValue : Value → Bool
  | .arr _ => true
  | _ => false

/-- is_valid_query_structure from claude_query_executor.py. -/
def is_valid_query_structure (query : Value) : Bool :=
  match query with
  | .obj m =>
      match alistGet m "aggregate" with
      | some a =>
          isBoolValue a &&
          (match alistGet m "pipeline" with
           | some p => isArrValue p
           | none => false)
      | none => true
  | _ => false

/-- The validation pipeline of generate_query, applied to the payload parsed
from the model response: fix the shape, normalize the field names, and
reject the result when is_valid_query_structure fails; the error of the
shape fix propagates. -/
def generate_query_pipeline (query : Value) : Except QueryError Value :=
  match validate_and_fix_query query with
  | .error e => .error e
  | .ok q1 =>
      let q2 := normalize_field_names q1
      if is_valid_query_structure q2 then .ok q2
      else .error .invalidQueryStructure

/-- A character allowed in a snake_case identifier: an ASCII lowercase
letter, an ASCII digit, or an underscore (character code 95). -/
def snakeChar (c : Char) : Bool := isLowerAscii c || isDigitAscii c || c.toNat == 95

/-- An ASCII letter or digit. -/
def alnumChar (c : Char) : Bool := isUpperAscii c || isLowerAscii c || isDigitAscii c

/-- An ASCII letter, digit or underscore. -/
def ldusChar (c : Char) : Bool := alnumChar c || snakeChar c

/-- A string is in snake_case when every character is a lowercase letter,
a digit, or an underscore. -/
def isSnake (s : String) : Bool := s.data.all snakeChar

/-- A key is an operator key (begins with the sigil) or consists of ASCII
letters, digits and underscores only. -/
def keyLdusOrOp (k : String) : Bool := startsDollar k || k.data.all ldusChar

/-- A key is an operator key (begins with the sigil) or is in snake_case. -/
def keySnakeOrOp (k : String) : Bool := startsDollar k || isSnake k

mutual

/-- Every key of every dict anywhere in the tree satisfies p. -/
def allKeysOk (p : String → Bool) : Value → Bool
  | .arr l => allKeysArr p l
  | .obj m => allKeysObj p m
  | _ => true

def allKeysArr (p : String → Bool) : List Value → Bool
  | [] => true
  | v :: rest => allKeysOk p v && allKeysArr p rest

def allKeysObj (p : String → Bool) : List (String × Value) → Bool
  | [] => true
  | (k, v) :: rest => p k && allKeysOk p v && allKeysObj p rest

end

/-- No two entries of the list share a key. -/
def nodupKeys : List String → Bool
  | [] => true
  | k :: rest => !(rest.any (fun k2 => k2 == k)) && nodupKeys rest

mutual

/-- Every dict anywhere in the tree has pairwise distinct keys.  Payloads
produced by json.loads always satisfy this, since Python dicts cannot hold
a key twice. -/
def uniqKeysTree : Value → Bool
  | .arr l => uniqKeysArr l
  | .obj m => nodupKeys (m.map Prod.fst) && uniqKeysObjVals m
  | _ => true

def uniqKeysArr : List Value → Bool
  | [] => true
  | v :: rest => uniqKeysTree v && uniqKeysArr rest

def uniqKeysObjVals : List (String × Value) → Bool
  | [] => true
  | (_, v) :: rest => uniqKeysTree v && uniqKeysObjVals rest

end

/-- Positional correspondence witnessing operator-key preservation: the
output tree has the same shape as the input along dicts and lists, every
entry of every input dict has a corresponding entry in the output dict
whose value corresponds recursively, and entries with operator keys keep
that exact key string.  The recursion covers every entry, operator-keyed
or not, so operator keys nested anywhere below non-operator keys are
reached as well. -/
def OpKeysSim : Value → Value → Prop
  | .arr l, w => ∃ l', w = .arr l' ∧ l.length = l'.length ∧
      ∀ (i : Nat) (h : i < l.length) (h' : i < l'.length),
        OpKeysSim (l.get ⟨i, h⟩) (l'.get ⟨i, h'⟩)
  | .obj m, w => ∃ m', w = .obj m' ∧
      ∀ p, p ∈ m → ∃ k' v', (k', v') ∈ m' ∧
        (startsDollar p.1 = true → k' = p.1) ∧ OpKeysSim p.2 v'
  | _, _ => True
termination_by v _ => sizeOf v
decreasing_by
  · have := List.sizeOf_lt_of_mem (l.get_mem i h)
    simp only [Value.arr.sizeOf_spec]
    omega
  · have h1 := List.sizeOf_lt_of_mem ‹p ∈ m›
    have h2 : sizeOf p.2 < sizeOf p := by
      obtain ⟨a, b⟩ := p
      simp only [Prod.mk.sizeOf_spec]
      omega
    simp only [Value.obj.sizeOf_spec]
    omega

mutual

/-- Some dict anywhere in the tree contains the key k. -/
def containsKeyDeep (k : String) : Value → Bool
  | .arr l => containsKeyDeepArr k l
  | .obj m => m.any (fun p => p.1 == k) || containsKeyDeepObj k m
  | _ => false

def containsKeyDeepArr (k : String) : List Value → Bool
  | [] => false
  | v :: rest => containsKeyDeep k v || containsKeyDeepArr k rest

def containsKeyDeepObj (k : String) : List (String × Value) → Bool
  | [] => false
  | (_, v) :: rest => containsKeyDeep k v || containsKeyDeepObj k rest

end

mutual

/-- Every dict anywhere in the tree has pairwise distinct normalized keys:
applying fixKey to its keys yields a list without duplicates.  Since equal
keys have equal images, this also forces the keys themselves to be pairwise
distinct.  It rules out exactly the collisions under which dict assignment
overwrites an earlier processed entry. -/
def normKeysDistinct : Value → Bool
  | .arr l => normKeysDistinctArr l
  | .obj m => nodupKeys ((m.map Prod.fst).map fixKey) && normKeysDistinctObj m
  | _ => true

def normKeysDistinctArr : List Value → Bool
  | [] => true
  | v :: rest => normKeysDistinct v && normKeysDistinctArr rest

def normKeysDistinctObj : List (String × Value) → Bool
  | [] => true
  | (_, v) :: rest => normKeysDistinct v && normKeysDistinctObj rest

end

/-! ## Helper lemmas -/

theorem validate_err_format {q : Value} {e : QueryError}
    (h : validate_and_fix_query q = .error e) : e = .invalidQueryFormat := by
  cases q with
  | str s => exact (Except.error.inj h).symm
  | num n => exact (Except.error.inj h).symm
  | bool b => exact (Except.error.inj h).symm
  | null => exact (Except.error.inj h).symm
  | arr l => exact absurd h (by simp [validate_and_fix_query])
  | obj m =>
      refine absurd h ?_
      simp only [validate_and_fix_query]
      split
      · simp
      · split <;> simp

theorem fixObj_singleton (k : String) (v : Value) :
    fixObj [(k, v)] [] = [(fixKey k, entryFix v)] := by
  cases v <;> simp [fixObj, entryFix, dictInsert]

theorem toNat_ofNat_valid (n : Nat) (h : n < 55296) : (Char.ofNat n).toNat = n := by
  have hv : Nat.isValidChar n := Or.inl h
  simp [Char.ofNat, hv, Char.ofNatAux, Char.toNat, UInt32.toNat]

theorem lowerChar_eq_self {c : Char} (h : isUpperAscii c = false) : lowerChar c = c := by
  rw [lowerChar, if_neg]
  simp only [isUpperAscii, Bool.and_eq_false_iff, decide_eq_false_iff_not] at h
  omega

theorem lowerChar_toNat_of_upper {c : Char} (h : isUpperAscii c = true) :
    (lowerChar c).toNat = c.toNat + 32 := by
  simp only [isUpperAscii, Bool.and_eq_true, decide_eq_true_eq] at h
  rw [lowerChar, if_pos h]
  exact toNat_ofNat_valid _ (by omega)

theorem isUpperAscii_lowerChar (c : Char) : isUpperAscii (lowerChar c) = false := by
  by_cases h : isUpperAscii c = true
  · have h2 := lowerChar_toNat_of_upper h
    simp only [isUpperAscii, Bool.and_eq_true, decide_eq_true_eq] at h
    simp only [isUpperAscii, Bool.and_eq_false_iff, decide_eq_false_iff_not]
    omega
  · rw [lowerChar_eq_self (Bool.not_eq_true _ ▸ h)]
    exact Bool.not_eq_true _ ▸ h

theorem snakeChar_lowerChar {c : Char} (h : ldusChar c = true) :
    snakeChar (lowerChar c) = true := by
  by_cases hu : isUpperAscii c = true
  · have h2 := lowerChar_toNat_of_upper hu
    simp only [isUpperAscii, Bool.and_eq_true, decide_eq_true_eq] at hu
    simp only [snakeChar, isLowerAscii, isDigitAscii, Bool.or_eq_true, Bool.and_eq_true,
      decide_eq_true_eq, beq_iff_eq]
    omega
  · rw [Bool.not_eq_true] at hu
    rw [lowerChar_eq_self hu]
    simp only [ldusChar, alnumChar, snakeChar, isUpperAscii, isLowerAscii, isDigitAscii,
      Bool.or_eq_true, Bool.and_eq_true, decide_eq_true_eq, beq_iff_eq] at h hu ⊢
    simp only [Bool.and_eq_false_iff, decide_eq_false_iff_not] at hu
    omega

theorem snakeChar_not_upper {c : Char} (h : snakeChar c = true) :
    isUpperAscii c = false := by
  simp only [snakeChar, isLowerAscii, isDigitAscii, Bool.or_eq_true, Bool.and_eq_true,
    decide_eq_true_eq, beq_iff_eq] at h
  simp only [isUpperAscii, Bool.and_eq_false_iff, decide_eq_false_iff_not]
  omega

theorem camelPass1Fuel_cons_cons (fuel : Nat) (c0 c1 : Char) (rest : List Char) :
    camelPass1Fuel (fuel + 1) (c0 :: c1 :: rest) =
      if ((c0 != '\n') && isUpperAscii c1 &&
          (match rest with
           | c2 :: _ => isLowerAscii c2
           | [] => false)) = true then
        c0 :: '_' :: c1 ::
          (rest.takeWhile isLowerAscii ++
            camelPass1Fuel fuel (rest.dropWhile isLowerAscii))
      else
        c0 :: camelPass1Fuel fuel (c1 :: rest) := by
  cases rest <;> rfl

theorem camelPass1Fuel_mem {fuel : Nat} {l : List Char} {c : Char}
    (h : c ∈ camelPass1Fuel fuel l) : c ∈ l ∨ c = '_' := by
  induction fuel, l using camelPass1Fuel.induct with
  | case1 l => exact Or.inl h
  | case2 n => exact Or.inl h
  | case3 n c0 => exact Or.inl h
  | case4 fuel c0 c1 rest hcond ih =>
      rw [camelPass1Fuel_cons_cons, if_pos hcond] at h
      simp only [List.mem_cons, List.mem_append] at h
      rcases h with h | h | h | h | h
      · exact Or.inl (by simp [h])
      · exact Or.inr h
      · exact Or.inl (by simp [h])
      · have := (List.takeWhile_sublist (p := isLowerAscii)).subset h
        exact Or.inl (by simp [this])
      · rcases ih h with h2 | h2
        · have := (List.dropWhile_sublist (p := isLowerAscii)).subset h2
          exact Or.inl (by simp [this])
        · exact Or.inr h2
  | case5 fuel c0 c1 rest hcond ih =>
      rw [camelPass1Fuel_cons_cons, if_neg hcond] at h
      simp only [List.mem_cons] at h
      rcases h with h | h
      · exact Or.inl (by simp [h])
      · rcases ih h with h2 | h2
        · exact Or.inl (by simp only [List.mem_cons] at h2 ⊢; tauto)
        · exact Or.inr h2

theorem camelPass2_cons_cons (c0 c1 : Char) (rest : List Char) :
    camelPass2 (c0 :: c1 :: rest) =
      if ((isLowerAscii c0 || isDigitAscii c0) && isUpperAscii c1) = true then
        c0 :: '_' :: c1 :: camelPass2 rest
      else
        c0 :: camelPass2 (c1 :: rest) := rfl

theorem camelPass2_mem {l : List Char} {c : Char}
    (h : c ∈ camelPass2 l) : c ∈ l ∨ c = '_' := by
  induction l using camelPass2.induct with
  | case1 => exact Or.inl h
  | case2 c0 => exact Or.inl h
  | case3 c0 c1 rest hcond ih =>
      rw [camelPass2_cons_cons, if_pos hcond] at h
      simp only [List.mem_cons] at h
      rcases h with h | h | h | h
      · exact Or.inl (by simp [h])
      · exact Or.inr h
      · exact Or.inl (by simp [h])
      · rcases ih h with h2 | h2
        · exact Or.inl (by simp only [List.mem_cons] at h2 ⊢; tauto)
        · exact Or.inr h2
  | case4 c0 c1 rest hcond ih =>
      rw [camelPass2_cons_cons, if_neg hcond] at h
      simp only [List.mem_cons] at h
      rcases h with h | h
      · exact Or.inl (by simp [h])
      · rcases ih h with h2 | h2
        · exact Or.inl (by simp only [List.mem_cons] at h2 ⊢; tauto)
        · exact Or.inr h2

theorem camelPass1Fuel_eq_self {fuel : Nat} {l : List Char}
    (h : ∀ c ∈ l, isUpperAscii c = false) : camelPass1Fuel fuel l = l := by
  induction fuel, l using camelPass1Fuel.induct with
  | case1 l => rfl
  | case2 n => rfl
  | case3 n c0 => rfl
  | case4 fuel c0 c1 rest hcond ih =>
      exfalso
      have h1 := h c1 (by simp)
      rw [Bool.and_eq_true, Bool.and_eq_true] at hcond
      rw [h1] at hcond
      exact Bool.noConfusion hcond.1.2
  | case5 fuel c0 c1 rest hcond ih =>
      rw [camelPass1Fuel_cons_cons, if_neg hcond,
        ih (fun c hc => h c (List.mem_cons_of_mem c0 hc))]

theorem camelPass2_eq_self {l : List Char}
    (h : ∀ c ∈ l, isUpperAscii c = false) : camelPass2 l = l := by
  induction l using camelPass2.induct with
  | case1 => rfl
  | case2 c0 => rfl
  | case3 c0 c1 rest hcond ih =>
      exfalso
      have h1 := h c1 (by simp)
      simp only [Bool.and_eq_true] at hcond
      rw [h1] at hcond
      exact Bool.noConfusion hcond.2
  | case4 c0 c1 rest hcond ih =>
      rw [camelPass2_cons_cons, if_neg hcond,
        ih (fun c hc => h c (List.mem_cons_of_mem c0 hc))]

theorem map_lowerChar_eq_self {l : List Char}
    (h : ∀ c ∈ l, isUpperAscii c = false) : l.map lowerChar = l := by
  induction l with
  | nil => rfl
  | cons c rest ih =>
      rw [List.map_cons, lowerChar_eq_self (h c (by simp)),
        ih (fun d hd => h d (List.mem_cons_of_mem c hd))]

theorem convert_chars_not_upper (s : String) :
    ∀ c ∈ (convert_to_snake_case s).data, isUpperAscii c = false := by
  intro c hc
  simp only [convert_to_snake_case] at hc
  rcases List.mem_map.mp hc with ⟨d, _, rfl⟩
  exact isUpperAscii_lowerChar d

theorem convert_eq_self {s : String}
    (h : ∀ c ∈ s.data, isUpperAscii c = false) : convert_to_snake_case s = s := by
  rw [convert_to_snake_case, camelPass1, camelPass1Fuel_eq_self h, camelPass2_eq_self h,
    map_lowerChar_eq_self h]

theorem convert_snake_of_ldus {s : String}
    (h : ∀ c ∈ s.data, ldusChar c = true) :
    isSnake (convert_to_snake_case s) = true := by
  rw [isSnake, List.all_eq_true]
  intro c hc
  simp only [convert_to_snake_case] at hc
  rcases List.mem_map.mp hc with ⟨d, hd, rfl⟩
  rcases camelPass2_mem hd with hd2 | rfl
  · rcases camelPass1Fuel_mem hd2 with hd3 | rfl
    · exact snakeChar_lowerChar (h d hd3)
    · exact snakeChar_lowerChar (by rfl)
  · exact snakeChar_lowerChar (by rfl)

theorem camelPass1Fuel_head (fuel : Nat) (l : List Char) :
    (camelPass1Fuel fuel l).head? = l.head? := by
  match fuel, l with
  | 0, l => rfl
  | _ + 1, [] => rfl
  | _ + 1, [c0] => rfl
  | fuel + 1, c0 :: c1 :: rest =>
      rw [camelPass1Fuel_cons_cons]
      split <;> rfl

theorem camelPass2_head (l : List Char) : (camelPass2 l).head? = l.head? := by
  match l with
  | [] => rfl
  | [c0] => rfl
  | c0 :: c1 :: rest =>
      rw [camelPass2_cons_cons]
      split <;> rfl

theorem convert_head (s : String) :
    (convert_to_snake_case s).data.head? = s.data.head?.map lowerChar := by
  simp only [convert_to_snake_case]
  rw [List.head?_map, camelPass2_head, camelPass1, camelPass1Fuel_head]

theorem field_mappings_keys_upper :
    field_mappings.all (fun p => p.1.data.any isUpperAscii) = true := by decide

theorem field_mappings_vals_snake :
    field_mappings.all (fun p => isSnake p.2) = true := by decide

theorem alistGet_mem {α : Type} {t : List (String × α)} {k : String} {v : α}
    (h : alistGet t k = some v) : (k, v) ∈ t := by
  induction t with
  | nil => cases h
  | cons p rest ih =>
      obtain ⟨k', w⟩ := p
      rw [alistGet] at h
      split at h
      · cases Option.some.inj h
        simp [*]
      · exact List.mem_cons_of_mem _ (ih h)

theorem alistGet_none_of_no_upper {t : List (String × String)} {s : String}
    (ht : t.all (fun p => p.1.data.any isUpperAscii) = true)
    (hs : ∀ c ∈ s.data, isUpperAscii c = false) : alistGet t s = none := by
  induction t with
  | nil => rfl
  | cons p rest ih =>
      obtain ⟨k, w⟩ := p
      rw [alistGet]
      rw [List.all_cons, Bool.and_eq_true] at ht
      split
      · next heq =>
          exfalso
          subst heq
          rcases List.any_eq_true.mp ht.1 with ⟨c, hc, hcu⟩
          rw [hs c hc] at hcu
          exact Bool.noConfusion hcu
      · exact ih ht.2

theorem mapKeyName_chars_not_upper (k : String) :
    ∀ c ∈ (mapKeyName k).data, isUpperAscii c = false := by
  intro c hc
  rw [mapKeyName] at hc
  split at hc
  · next v hv =>
      have hmem := alistGet_mem hv
      have hall := List.all_eq_true.mp field_mappings_vals_snake _ hmem
      exact snakeChar_not_upper (List.all_eq_true.mp hall c hc)
  · exact convert_chars_not_upper k c hc

theorem mapKeyName_idem (k : String) : mapKeyName (mapKeyName k) = mapKeyName k := by
  have hn := mapKeyName_chars_not_upper k
  rw [mapKeyName, alistGet_none_of_no_upper field_mappings_keys_upper hn]
  exact convert_eq_self hn

theorem mapKeyName_snake_of_ldus {k : String}
    (h : ∀ c ∈ k.data, ldusChar c = true) : isSnake (mapKeyName k) = true := by
  rw [mapKeyName]
  split
  · next v hv => exact List.all_eq_true.mp field_mappings_vals_snake _ (alistGet_mem hv)
  · exact convert_snake_of_ldus h

theorem startsDollar_false_iff {s : String} :
    startsDollar s = false ↔ ∀ c, s.data.head? = some c → c ≠ '$' := by
  rw [startsDollar]
  cases s.data with
  | nil => simp
  | cons c rest => simp

theorem fixKey_mapKeyName_fixed (k : String) :
    fixKey (mapKeyName k) = mapKeyName k := by
  rw [fixKey]
  split
  · rfl
  · exact mapKeyName_idem k

theorem fixKey_idem (k : String) : fixKey (fixKey k) = fixKey k := by
  by_cases h : startsDollar k = true
  · have hk : fixKey k = k := by rw [fixKey, if_pos h]
    rw [hk, hk]
  · rw [Bool.not_eq_true] at h
    have hk : fixKey k = mapKeyName k := by
      rw [fixKey, h]
      simp
    rw [hk]
    exact fixKey_mapKeyName_fixed k

theorem lowerChar_cases (c : Char) :
    lowerChar c = c ∨ (97 ≤ (lowerChar c).toNat ∧ (lowerChar c).toNat ≤ 122) := by
  by_cases h : isUpperAscii c = true
  · right
    have h2 := lowerChar_toNat_of_upper h
    simp only [isUpperAscii, Bool.and_eq_true, decide_eq_true_eq] at h
    omega
  · left
    exact lowerChar_eq_self (Bool.not_eq_true _ ▸ h)

theorem startsDollar_mkDollar (s : String) : startsDollar (mkDollar s) = true := rfl

theorem strTail_mkDollar (s : String) : strTail (mkDollar s) = s := rfl

theorem snake_startsDollar_false {s : String} (h : isSnake s = true) :
    startsDollar s = false := by
  rw [startsDollar]
  cases hd : s.data with
  | nil => rfl
  | cons c rest =>
      have hc : snakeChar c = true := by
        rw [isSnake, List.all_eq_true] at h
        exact h c (by rw [hd]; simp)
      cases hbe : c == '$'
      · exact hbe
      · rw [beq_iff_eq] at hbe
        subst hbe
        exact absurd hc (by decide)

theorem startsDollar_mapKeyName {k : String} (h : startsDollar k = false) :
    startsDollar (mapKeyName k) = false := by
  rw [mapKeyName]
  split
  · next v hv =>
      exact snake_startsDollar_false
        (List.all_eq_true.mp field_mappings_vals_snake _ (alistGet_mem hv))
  · rw [startsDollar]
    cases hd : (convert_to_snake_case k).data with
    | nil => rfl
    | cons c rest =>
        have hh : (convert_to_snake_case k).data.head? = some c := by rw [hd]; rfl
        rw [convert_head] at hh
        cases hk : k.data with
        | nil => rw [hk] at hh; cases hh
        | cons d tail =>
            rw [hk] at hh
            simp only [List.head?_cons, Option.map_some'] at hh
            have hc : c = lowerChar d := (Option.some.inj hh).symm
            simp only [startsDollar, hk] at h
            rcases lowerChar_cases d with hcase | hcase
            · rw [hc, hcase]
              exact h
            · cases hbe : c == '$'
              · exact hbe
              · rw [beq_iff_eq] at hbe
                rw [hbe] at hc
                have : ('$' : Char).toNat = 36 := rfl
                rw [← hc] at hcase
                omega

theorem fixKey_op {k : String} (h : startsDollar k = true) : fixKey k = k := by
  rw [fixKey, if_pos h]

theorem startsDollar_fixKey {k : String} (h : startsDollar k = false) :
    startsDollar (fixKey k) = false := by
  rw [fixKey, h]
  rw [if_neg (by simp)]
  exact startsDollar_mapKeyName h

theorem fixKey_ne_of_op {k k2 : String} (hk : startsDollar k = true) (hne : k2 ≠ k) :
    fixKey k2 ≠ k := by
  by_cases h2 : startsDollar k2 = true
  · rw [fixKey_op h2]
    exact hne
  · rw [Bool.not_eq_true] at h2
    intro he
    have hf := startsDollar_fixKey h2
    rw [he, hk] at hf
    exact Bool.noConfusion hf

theorem value_induction (P : Value → Prop)
    (hstr : ∀ s, P (.str s)) (hnum : ∀ n, P (.num n))
    (hbool : ∀ b, P (.bool b)) (hnull : P .null)
    (harr : ∀ l, (∀ v ∈ l, P v) → P (.arr l))
    (hobj : ∀ m, (∀ p ∈ m, P p.2) → P (.obj m)) : ∀ v, P v := by
  have H : ∀ n (v : Value), sizeOf v ≤ n → P v := by
    intro n
    induction n with
    | zero =>
        intro v hv
        exfalso
        cases v <;> simp at hv
    | succ n ih =>
        intro v hv
        cases v with
        | str s => exact hstr s
        | num k => exact hnum k
        | bool b => exact hbool b
        | null => exact hnull
        | arr l =>
            refine harr l (fun w hw => ih w ?_)
            have h1 := List.sizeOf_lt_of_mem hw
            simp only [Value.arr.sizeOf_spec] at hv
            omega
        | obj m =>
            refine hobj m (fun p hp => ih p.2 ?_)
            have h1 := List.sizeOf_lt_of_mem hp
            have h2 : sizeOf p.2 < sizeOf p := by
              obtain ⟨a, b⟩ := p
              simp only [Prod.mk.sizeOf_spec]
              omega
            simp only [Value.obj.sizeOf_spec] at hv
            omega
  exact fun v => H (sizeOf v) v (Nat.le_refl _)

theorem mem_dictInsert_self (m : List (String × Value)) (k : String) (v : Value) :
    (k, v) ∈ dictInsert m k v := by
  rw [dictInsert]
  split
  · next h =>
      rcases List.any_eq_true.mp h with ⟨p, hp, hpk⟩
      refine List.mem_map.mpr ⟨p, hp, ?_⟩
      rw [if_pos hpk]
  · exact List.mem_append.mpr (Or.inr (by simp))

theorem dictInsert_mem {m : List (String × Value)} {k : String} {v : Value}
    {p : String × Value} (h : p ∈ dictInsert m k v) : p ∈ m ∨ p = (k, v) := by
  rw [dictInsert] at h
  split at h
  · rcases List.mem_map.mp h with ⟨q, hq, hqe⟩
    by_cases hqk : (q.1 == k) = true
    · rw [if_pos hqk] at hqe
      exact Or.inr hqe.symm
    · rw [if_neg hqk] at hqe
      exact Or.inl (hqe ▸ hq)
  · rcases List.mem_append.mp h with h | h
    · exact Or.inl h
    · simp only [List.mem_singleton] at h
      exact Or.inr h

theorem dictInsert_mem_of_ne {m : List (String × Value)} {k : String} {v : Value}
    {p : String × Value} (hp : p ∈ m) (hne : p.1 ≠ k) : p ∈ dictInsert m k v := by
  rw [dictInsert]
  split
  · refine List.mem_map.mpr ⟨p, hp, ?_⟩
    rw [if_neg (by simp [hne])]
  · exact List.mem_append.mpr (Or.inl hp)

theorem dictInsert_append {m : List (String × Value)} {k : String} {v : Value}
    (h : ∀ p ∈ m, p.1 ≠ k) : dictInsert m k v = m ++ [(k, v)] := by
  rw [dictInsert, if_neg]
  simp only [List.any_eq_true, not_exists]
  intro p
  simp only [not_and]
  intro hp hpk
  exact h p hp (by simpa using hpk)

theorem dictInsert_keys (m : List (String × Value)) (k : String) (v : Value) :
    (dictInsert m k v).map Prod.fst =
      if m.any (fun p => p.1 == k) then m.map Prod.fst
      else m.map Prod.fst ++ [k] := by
  rw [dictInsert]
  split
  · next h =>
      rw [List.map_map]
      refine List.map_congr_left ?_
      intro p hp
      by_cases hpk : (p.1 == k) = true
      · simp only [Function.comp_apply, if_pos hpk]
        exact (beq_iff_eq.mp hpk).symm
      · simp only [Function.comp_apply, if_neg hpk]
  · next h =>
      rw [List.map_append]
      rfl

theorem nodupKeys_append_singleton {ks : List String} {k : String}
    (h : nodupKeys ks = true) (hk : ∀ k' ∈ ks, k' ≠ k) :
    nodupKeys (ks ++ [k]) = true := by
  induction ks with
  | nil => rfl
  | cons a rest ih =>
      rw [List.cons_append, nodupKeys, Bool.and_eq_true]
      rw [nodupKeys, Bool.and_eq_true] at h
      refine ⟨?_, ih h.2 (fun k' hk' => hk k' (by simp [hk']))⟩
      rw [Bool.not_eq_true']
      rw [List.any_append]
      rw [Bool.not_eq_true'] at h
      have h1 := h.1
      rw [Bool.or_eq_false_iff]
      refine ⟨h1, ?_⟩
      simp only [List.any_cons, List.any_nil, Bool.or_false]
      have : k ≠ a := fun he => hk a (by simp) he.symm
      simpa using this

theorem dictInsert_nodup {m : List (String × Value)} {k : String} {v : Value}
    (h : nodupKeys (m.map Prod.fst) = true) :
    nodupKeys ((dictInsert m k v).map Prod.fst) = true := by
  rw [dictInsert_keys]
  split
  · exact h
  · next hne =>
      refine nodupKeys_append_singleton h ?_
      rintro k' hk' rfl
      rcases List.mem_map.mp hk' with ⟨p, hp, rfl⟩
      exact hne (List.any_eq_true.mpr ⟨p, hp, by simp⟩)

theorem fix_fields_str (s : String) : fix_fields (.str s) = .str s := rfl

theorem fix_fields_arr (l : List Value) : fix_fields (.arr l) = .arr (fixArr l) := rfl

theorem fix_fields_obj (m : List (String × Value)) :
    fix_fields (.obj m) = .obj (fixObj m []) := rfl

theorem fixArr_eq_map (l : List Value) : fixArr l = l.map fix_fields := by
  induction l with
  | nil => rfl
  | cons v rest ih => rw [fixArr, ih, List.map_cons]

theorem entryFix_str (s : String) :
    entryFix (.str s) =
      .str (if startsDollar s then mkDollar (mapKeyName (strTail s)) else s) := rfl

theorem fixObj_cons (k : String) (v : Value) (rest : List (String × Value))
    (acc : List (String × Value)) :
    fixObj ((k, v) :: rest) acc =
      fixObj rest (dictInsert acc (fixKey k) (entryFix v)) := by
  cases v <;> rfl

theorem fixObj_mem {m : List (String × Value)} {acc : List (String × Value)}
    {p : String × Value} (h : p ∈ fixObj m acc) :
    p ∈ acc ∨ ∃ q ∈ m, p = (fixKey q.1, entryFix q.2) := by
  induction m generalizing acc with
  | nil => exact Or.inl h
  | cons q rest ih =>
      obtain ⟨k, v⟩ := q
      rw [fixObj_cons] at h
      rcases ih h with h2 | h2
      · rcases dictInsert_mem h2 with h3 | h3
        · exact Or.inl h3
        · exact Or.inr ⟨(k, v), by simp, h3⟩
      · rcases h2 with ⟨q, hq, he⟩
        exact Or.inr ⟨q, by simp [hq], he⟩

theorem fixObj_nodup {m : List (String × Value)} {acc : List (String × Value)}
    (h : nodupKeys (acc.map Prod.fst) = true) :
    nodupKeys ((fixObj m acc).map Prod.fst) = true := by
  induction m generalizing acc with
  | nil => exact h
  | cons q rest ih =>
      obtain ⟨k, v⟩ := q
      rw [fixObj_cons]
      exact ih (dictInsert_nodup h)

theorem fixObj_fixed {m : List (String × Value)} {acc : List (String × Value)}
    (hfix : ∀ p ∈ m, fixKey p.1 = p.1 ∧ entryFix p.2 = p.2)
    (hnodup : nodupKeys (m.map Prod.fst) = true)
    (hdisj : ∀ p ∈ m, ∀ q ∈ acc, q.1 ≠ p.1) :
    fixObj m acc = acc ++ m := by
  induction m generalizing acc with
  | nil => simp [fixObj]
  | cons q rest ih =>
      obtain ⟨k, v⟩ := q
      rw [fixObj_cons]
      have h1 := hfix (k, v) (by simp)
      rw [h1.1, h1.2]
      rw [List.map_cons, nodupKeys, Bool.and_eq_true, Bool.not_eq_true',
        List.any_eq_false] at hnodup
      rw [dictInsert_append (fun p hp => (hdisj (k, v) (by simp) p hp))]
      rw [ih (fun p hp => hfix p (by simp [hp])) hnodup.2 ?hdisj]
      · simp
      case hdisj =>
        intro p hp q hq
        rcases List.mem_append.mp hq with hq2 | hq2
        · exact hdisj p (by simp [hp]) q hq2
        · simp only [List.mem_singleton] at hq2
          subst hq2
          have := hnodup.1 p.1 (List.mem_map.mpr ⟨p, hp, rfl⟩)
          simpa using fun he => (by rw [he] at this; simp at this : False)

theorem fixObj_preserve {m : List (String × Value)} {acc : List (String × Value)}
    {p : String × Value} (hp : p ∈ acc) (hk : ∀ q ∈ m, fixKey q.1 ≠ p.1) :
    p ∈ fixObj m acc := by
  induction m generalizing acc with
  | nil => exact hp
  | cons q rest ih =>
      obtain ⟨k2, v2⟩ := q
      rw [fixObj_cons]
      refine ih (dictInsert_mem_of_ne hp ?_) (fun q hq => hk q (by simp [hq]))
      exact fun he => hk (k2, v2) (by simp) he.symm

theorem fixObj_keeps_op {m : List (String × Value)} {acc : List (String × Value)}
    {k : String} {v : Value}
    (hnodup : nodupKeys (m.map Prod.fst) = true)
    (hmem : (k, v) ∈ m) (hd : startsDollar k = true) :
    (k, entryFix v) ∈ fixObj m acc := by
  induction m generalizing acc with
  | nil => cases hmem
  | cons q rest ih =>
      obtain ⟨k2, v2⟩ := q
      rw [fixObj_cons]
      rw [List.map_cons, nodupKeys, Bool.and_eq_true, Bool.not_eq_true',
        List.any_eq_false] at hnodup
      rcases List.mem_cons.mp hmem with he | hmem2
      · injection he with he1 he2
        subst he1
        subst he2
        rw [fixKey_op hd]
        refine fixObj_preserve (mem_dictInsert_self _ _ _) ?_
        intro q hq
        have hq1 : q.1 ≠ k := by
          have := hnodup.1 q.1 (List.mem_map.mpr ⟨q, hq, rfl⟩)
          intro he
          rw [he] at this
          simp at this
        exact fixKey_ne_of_op hd hq1
      · exact ih hnodup.2 hmem2

theorem entryFix_idem {v : Value} (ih : fix_fields (fix_fields v) = fix_fields v) :
    entryFix (entryFix v) = entryFix v := by
  cases v with
  | str s =>
      rw [entryFix_str]
      by_cases h : startsDollar s = true
      · rw [if_pos h, entryFix_str, startsDollar_mkDollar, if_pos rfl,
          strTail_mkDollar, mapKeyName_idem]
      · rw [Bool.not_eq_true] at h
        rw [h]
        rw [if_neg (by simp), entryFix_str, h, if_neg (by simp)]
  | num n => rfl
  | bool b => rfl
  | null => rfl
  | arr l => exact ih
  | obj m => exact ih

theorem uniqKeysTree_arr (l : List Value) :
    uniqKeysTree (.arr l) = uniqKeysArr l := rfl

theorem uniqKeysTree_obj (m : List (String × Value)) :
    uniqKeysTree (.obj m) =
      (nodupKeys (m.map Prod.fst) && uniqKeysObjVals m) := rfl

theorem uniqKeysArr_mem {l : List Value} {v : Value}
    (h : uniqKeysArr l = true) (hv : v ∈ l) : uniqKeysTree v = true := by
  induction l with
  | nil => cases hv
  | cons w rest ih =>
      rw [uniqKeysArr, Bool.and_eq_true] at h
      rcases List.mem_cons.mp hv with rfl | hv2
      · exact h.1
      · exact ih h.2 hv2

theorem uniqKeysObjVals_mem {m : List (String × Value)} {p : String × Value}
    (h : uniqKeysObjVals m = true) (hp : p ∈ m) : uniqKeysTree p.2 = true := by
  induction m with
  | nil => cases hp
  | cons q rest ih =>
      obtain ⟨k, v⟩ := q
      rw [uniqKeysObjVals, Bool.and_eq_true] at h
      rcases List.mem_cons.mp hp with rfl | hp2
      · exact h.1
      · exact ih h.2 hp2

theorem opKeysSim_scalar {v w : Value}
    (h : (∀ l, v ≠ .arr l) ∧ ∀ m, v ≠ .obj m) : OpKeysSim v w := by
  rw [OpKeysSim.eq_def]
  cases v with
  | arr l => exact absurd rfl (h.1 l)
  | obj m => exact absurd rfl (h.2 m)
  | str s => exact trivial
  | num n => exact trivial
  | bool b => exact trivial
  | null => exact trivial

theorem opKeysSim_arr {l l' : List Value} (hlen : l.length = l'.length)
    (h : ∀ (i : Nat) (hi : i < l.length) (hi' : i < l'.length),
      OpKeysSim (l.get ⟨i, hi⟩) (l'.get ⟨i, hi'⟩)) :
    OpKeysSim (.arr l) (.arr l') := by
  rw [OpKeysSim.eq_def]
  exact ⟨l', rfl, hlen, h⟩

theorem opKeysSim_obj {m m' : List (String × Value)}
    (h : ∀ p, p ∈ m → ∃ k' v', (k', v') ∈ m' ∧
      (startsDollar p.1 = true → k' = p.1) ∧ OpKeysSim p.2 v') :
    OpKeysSim (.obj m) (.obj m') := by
  rw [OpKeysSim.eq_def]
  exact ⟨m', rfl, h⟩

theorem normKeysDistinct_arr (l : List Value) :
    normKeysDistinct (.arr l) = normKeysDistinctArr l := rfl

theorem normKeysDistinct_obj (m : List (String × Value)) :
    normKeysDistinct (.obj m) =
      (nodupKeys ((m.map Prod.fst).map fixKey) && normKeysDistinctObj m) := rfl

theorem normKeysDistinctArr_mem {l : List Value} {v : Value}
    (h : normKeysDistinctArr l = true) (hv : v ∈ l) :
    normKeysDistinct v = true := by
  induction l with
  | nil => cases hv
  | cons w rest ih =>
      rw [normKeysDistinctArr, Bool.and_eq_true] at h
      rcases List.mem_cons.mp hv with rfl | hv2
      · exact h.1
      · exact ih h.2 hv2

theorem normKeysDistinctObj_mem {m : List (String × Value)} {p : String × Value}
    (h : normKeysDistinctObj m = true) (hp : p ∈ m) :
    normKeysDistinct p.2 = true := by
  induction m with
  | nil => cases hp
  | cons q rest ih =>
      obtain ⟨k, v⟩ := q
      rw [normKeysDistinctObj, Bool.and_eq_true] at h
      rcases List.mem_cons.mp hp with rfl | hp2
      · exact h.1
      · exact ih h.2 hp2

theorem fixObj_keeps_all {m : List (String × Value)} {acc : List (String × Value)}
    {k : String} {v : Value}
    (hnodup : nodupKeys ((m.map Prod.fst).map fixKey) = true)
    (hmem : (k, v) ∈ m) :
    (fixKey k, entryFix v) ∈ fixObj m acc := by
  induction m generalizing acc with
  | nil => cases hmem
  | cons q rest ih =>
      obtain ⟨k2, v2⟩ := q
      rw [fixObj_cons]
      rw [List.map_cons, List.map_cons, nodupKeys, Bool.and_eq_true,
        Bool.not_eq_true', List.any_eq_false] at hnodup
      rcases List.mem_cons.mp hmem with he | hmem2
      · injection he with he1 he2
        subst he1
        subst he2
        refine fixObj_preserve (mem_dictInsert_self _ _ _) ?_
        intro q hq heq
        have hmm := hnodup.1 (fixKey q.1)
          (List.mem_map.mpr ⟨q.1, List.mem_map.mpr ⟨q, hq, rfl⟩, rfl⟩)
        rw [heq] at hmm
        simp at hmm
      · exact ih hnodup.2 hmem2

theorem allKeysArr_iff {p : String → Bool} {l : List Value} :
    allKeysArr p l = true ↔ ∀ v ∈ l, allKeysOk p v = true := by
  induction l with
  | nil => simp [allKeysArr]
  | cons v rest ih =>
      rw [allKeysArr, Bool.and_eq_true, ih]
      constructor
      · rintro ⟨h1, h2⟩ w hw
        rcases List.mem_cons.mp hw with rfl | hw2
        · exact h1
        · exact h2 w hw2
      · intro h
        exact ⟨h v (by simp), fun w hw => h w (by simp [hw])⟩

theorem allKeysObj_iff {p : String → Bool} {m : List (String × Value)} :
    allKeysObj p m = true ↔
      ∀ q ∈ m, p q.1 = true ∧ allKeysOk p q.2 = true := by
  induction m with
  | nil => simp [allKeysObj]
  | cons q rest ih =>
      obtain ⟨k, v⟩ := q
      rw [allKeysObj, Bool.and_eq_true, Bool.and_eq_true, ih]
      constructor
      · rintro ⟨⟨h1, h2⟩, h3⟩ w hw
        rcases List.mem_cons.mp hw with rfl | hw2
        · exact ⟨h1, h2⟩
        · exact h3 w hw2
      · intro h
        exact ⟨⟨(h (k, v) (by simp)).1, (h (k, v) (by simp)).2⟩,
          fun w hw => h w (by simp [hw])⟩

theorem allKeysOk_arr (p : String → Bool) (l : List Value) :
    allKeysOk p (.arr l) = allKeysArr p l := rfl

theorem allKeysOk_obj (p : String → Bool) (m : List (String × Value)) :
    allKeysOk p (.obj m) = allKeysObj p m := rfl

/-! ## Claim theorems -/

/-- C1: validate_and_fix_query applies its five rules in order, first match
winning: a list is wrapped as a pipeline; a dict containing one of the keys
"$match", "$group", "$sort" is wrapped as a single-stage pipeline even if it
also has "aggregate" and "pipeline" keys; every other dict (with or without
the aggregate/pipeline pair) is returned unchanged; every scalar payload
fails with the invalid-format error. -/
theorem c1_validate_and_fix_query_cases :
    (∀ l, validate_and_fix_query (.arr l) =
        .ok (.obj [("aggregate", .bool true), ("pipeline", .arr l)])) ∧
    (∀ m, (hasKey m "$match" || hasKey m "$group" || hasKey m "$sort") = true →
        validate_and_fix_query (.obj m) =
          .ok (.obj [("aggregate", .bool true), ("pipeline", .arr [.obj m])])) ∧
    (∀ m, (hasKey m "$match" || hasKey m "$group" || hasKey m "$sort") = false →
        validate_and_fix_query (.obj m) = .ok (.obj m)) ∧
    (∀ s, validate_and_fix_query (.str s) = .error .invalidQueryFormat) ∧
    (∀ n, validate_and_fix_query (.num n) = .error .invalidQueryFormat) ∧
    (∀ b, validate_and_fix_query (.bool b) = .error .invalidQueryFormat) ∧
    validate_and_fix_query .null = .error .invalidQueryFormat := by
  refine ⟨fun l => rfl, fun m h => ?_, fun m h => ?_, fun s => rfl, fun n => rfl,
    fun b => rfl, rfl⟩
  · simp [validate_and_fix_query, h]
  · simp [validate_and_fix_query, h]

/-- Witness for C1 at concrete inputs: a dict holding a "$match" key is
wrapped even though it also has aggregate and pipeline keys, and a plain
find-filter dict is returned unchanged. -/
theorem c1_witness :
    validate_and_fix_query
        (.obj [("$match", .null), ("aggregate", .bool true), ("pipeline", .arr [])]) =
      .ok (.obj [("aggregate", .bool true),
        ("pipeline", .arr [.obj [("$match", .null), ("aggregate", .bool true),
          ("pipeline", .arr [])]])]) ∧
    validate_and_fix_query (.obj [("department_name", .str "x")]) =
      .ok (.obj [("department_name", .str "x")]) :=
  ⟨c1_validate_and_fix_query_cases.2.1 _ (by rfl),
   c1_validate_and_fix_query_cases.2.2.1 _ (by rfl)⟩

/-- C2: the composite pipeline raises the invalid-structure error exactly
when shape correction succeeds and the shape-corrected, renamed payload
fails is_valid_query_structure; the dict with "aggregate" bound to the
string "yes" and an empty "pipeline" passes shape correction unchanged and
makes the composite pipeline fail with that error. -/
theorem c2_pipeline_invalid_structure :
    (∀ q, generate_query_pipeline q = .error .invalidQueryStructure ↔
        ∃ q1, validate_and_fix_query q = .ok q1 ∧
          is_valid_query_structure (normalize_field_names q1) = false) ∧
    validate_and_fix_query (.obj [("aggregate", .str "yes"), ("pipeline", .arr [])]) =
      .ok (.obj [("aggregate", .str "yes"), ("pipeline", .arr [])]) ∧
    generate_query_pipeline (.obj [("aggregate", .str "yes"), ("pipeline", .arr [])]) =
      .error .invalidQueryStructure := by
  refine ⟨fun q => ?_, by rfl, by rfl⟩
  cases hv : validate_and_fix_query q with
  | error e =>
      have he := validate_err_format hv
      subst he
      simp only [generate_query_pipeline, hv]
      constructor
      · intro h
        exact absurd (Except.error.inj h) (by simp)
      · rintro ⟨q1, h, _⟩
        exact Except.noConfusion h
  | ok q1 =>
      simp only [generate_query_pipeline, hv]
      by_cases hval : is_valid_query_structure (normalize_field_names q1) = true
      · rw [hval]
        constructor
        · intro h
          rw [if_pos rfl] at h
          exact Except.noConfusion h
        · rintro ⟨q2, h, hbad⟩
          cases Except.ok.inj h
          rw [hval] at hbad
          cases hbad
      · simp only [Bool.not_eq_true] at hval
        rw [hval]
        exact Iff.intro (fun _ => ⟨q1, rfl, hval⟩) (fun _ => by rfl)

/-- C3: is_valid_query_structure rejects every non-dict payload; a dict
with an "aggregate" key is accepted exactly when that value is a boolean
and a "pipeline" key is present with a list value; a dict without an
"aggregate" key is always accepted. -/
theorem c3_is_valid_query_structure_cases :
    (∀ v, (∀ m, v ≠ .obj m) → is_valid_query_structure v = false) ∧
    (∀ m a, alistGet m "aggregate" = some a →
        (is_valid_query_structure (.obj m) = true ↔
          (∃ b, a = .bool b) ∧
          ∃ l, alistGet m "pipeline" = some (.arr l))) ∧
    (∀ m, alistGet m "aggregate" = none →
        is_valid_query_structure (.obj m) = true) := by
  refine ⟨fun v hv => ?_, fun m a ha => ?_, fun m hm => ?_⟩
  · cases v <;> first
      | rfl
      | exact absurd rfl (hv _)
  · simp only [is_valid_query_structure, ha, Bool.and_eq_true]
    constructor
    · rintro ⟨h1, h2⟩
      refine ⟨?_, ?_⟩
      · cases a <;> simp [isBoolValue] at h1 ⊢
      · cases hp : alistGet m "pipeline" with
        | none => rw [hp] at h2; cases h2
        | some p =>
            rw [hp] at h2
            cases p <;> simp [isArrValue] at h2 ⊢
    · rintro ⟨⟨b, rfl⟩, l, hl⟩
      simp [hl, isBoolValue, isArrValue]
  · simp [is_valid_query_structure, hm]

/-- Witness for C3 at concrete inputs: an aggregate dict with boolean flag
and list pipeline is accepted, and a dict without an "aggregate" key is
accepted. -/
theorem c3_witness :
    is_valid_query_structure
        (.obj [("aggregate", .bool true), ("pipeline", .arr [])]) = true ∧
    is_valid_query_structure (.obj [("department_name", .str "x")]) = true ∧
    is_valid_query_structure (.str "just a string") = false :=
  ⟨(c3_is_valid_query_structure_cases.2.1
      [("aggregate", .bool true), ("pipeline", .arr [])] (.bool true)
      (by rfl)).mpr ⟨⟨true, rfl⟩, [], by rfl⟩,
   c3_is_valid_query_structure_cases.2.2 [("department_name", .str "x")] (by rfl),
   c3_is_valid_query_structure_cases.1 _ (fun m h => by cases h)⟩

/-- Counterexample to C5 as stated: a dict whose only top-level key is the
stage operator "$project" is not wrapped; validate_and_fix_query returns it
unchanged rather than as a single-stage pipeline. -/
theorem c5_counterexample :
    validate_and_fix_query (.obj [("$project", .null)]) =
      .ok (.obj [("$project", .null)]) ∧
    validate_and_fix_query (.obj [("$project", .null)]) ≠
      .ok (.obj [("aggregate", .bool true),
        ("pipeline", .arr [.obj [("$project", .null)]])]) := by
  constructor
  · rfl
  · intro h
    simp [validate_and_fix_query, hasKey] at h

/-- C5 amended: only the three stage-operator keys "$match", "$group" and
"$sort" trigger single-stage wrapping; a dict containing any of them is
wrapped, and a dict containing none of them — even one holding another
stage-operator key such as "$project" — is returned unchanged. -/
theorem c5_amended_stage_wrapping :
    (∀ m, (hasKey m "$match" || hasKey m "$group" || hasKey m "$sort") = true →
        validate_and_fix_query (.obj m) =
          .ok (.obj [("aggregate", .bool true), ("pipeline", .arr [.obj m])])) ∧
    (∀ m, (hasKey m "$match" || hasKey m "$group" || hasKey m "$sort") = false →
        validate_and_fix_query (.obj m) = .ok (.obj m)) ∧
    (∀ v, validate_and_fix_query (.obj [("$project", v)]) =
        .ok (.obj [("$project", v)])) := by
  refine ⟨fun m h => ?_, fun m h => ?_, fun v => ?_⟩
  · simp [validate_and_fix_query, h]
  · simp [validate_and_fix_query, h]
  · rfl

/-- Witness for C5 amended at concrete inputs: a "$sort"-only dict is
wrapped, a "$project"-only dict is not. -/
theorem c5_witness :
    validate_and_fix_query (.obj [("$sort", .null)]) =
      .ok (.obj [("aggregate", .bool true),
        ("pipeline", .arr [.obj [("$sort", .null)]])]) ∧
    validate_and_fix_query (.obj [("$project", .null)]) =
      .ok (.obj [("$project", .null)]) :=
  ⟨c5_amended_stage_wrapping.1 _ (by rfl),
   c5_amended_stage_wrapping.2.2 .null⟩

/-- C9: a non-operator key present in field_mappings is renamed to exactly
its table entry, and a non-operator key absent from the table is renamed by
the generic camelCase conversion; the key "supplierCode" resolves through
the table to "supplier_code". -/
theorem c9_table_precedence :
    (∀ k c, startsDollar k = false → alistGet field_mappings k = some c →
        fix_fields (.obj [(k, .null)]) = .obj [(c, .null)]) ∧
    (∀ k, startsDollar k = false → alistGet field_mappings k = none →
        fix_fields (.obj [(k, .null)]) =
          .obj [(convert_to_snake_case k, .null)]) ∧
    alistGet field_mappings "supplierCode" = some "supplier_code" ∧
    fix_fields (.obj [("supplierCode", .null)]) =
      .obj [("supplier_code", .null)] := by
  refine ⟨fun k c hd ht => ?_, fun k hd ht => ?_, rfl, by rfl⟩
  · simp [fix_fields, fixObj_singleton, entryFix, fixKey, hd, mapKeyName, ht]
  · simp [fix_fields, fixObj_singleton, entryFix, fixKey, hd, mapKeyName, ht]

/-- Witness for C9 at concrete inputs: the table key "supplierCode" maps to
"supplier_code", and the unmapped key "fooBar" falls back to the generic
conversion. -/
theorem c9_witness :
    fix_fields (.obj [("supplierCode", .null)]) =
      .obj [("supplier_code", .null)] ∧
    fix_fields (.obj [("fooBar", .null)]) =
      .obj [(convert_to_snake_case "fooBar", .null)] :=
  ⟨c9_table_precedence.1 "supplierCode" "supplier_code" (by rfl) (by rfl),
   c9_table_precedence.2.1 "fooBar" (by rfl) (by rfl)⟩

/-- C10: two distinct keys that normalize to the same canonical name
collapse to a single entry holding the value of the later key; the entry
count drops from two to one, so normalization does not preserve the number
of dict entries. -/
theorem c10_key_collision :
    normalize_field_names
        (.obj [("departmentName", .num 1), ("department_name", .num 2)]) =
      .obj [("department_name", .num 2)] ∧
    [("departmentName", Value.num 1), ("department_name", Value.num 2)].length = 2 ∧
    [("department_name", Value.num 2)].length = 1 := by
  exact ⟨by rfl, rfl, rfl⟩

/-- Counterexample to C4 as stated: a sigil-prefixed string value that
occurs as a direct element of a list is not rewritten by the field-name
normalization; the list element "$fooBar" stays "$fooBar" instead of
becoming "$foo_bar". -/
theorem c4_counterexample :
    normalize_field_names (.arr [.str "$fooBar"]) = .arr [.str "$fooBar"] ∧
    normalize_field_names (.arr [.str "$fooBar"]) ≠ .arr [.str "$foo_bar"] := by
  refine ⟨rfl, ?_⟩
  intro h
  rw [show normalize_field_names (.arr [.str "$fooBar"]) = .arr [.str "$fooBar"]
    from rfl] at h
  injection h with h1
  injection h1 with h2 h3
  injection h2 with h4
  exact absurd h4 (by decide)

/-- C4 amended: a string value beginning with the sigil is rewritten —
sigil stripped, the remainder resolved through the table or the generic
conversion, sigil reattached — only when it is the value of a dict entry;
lists are processed by recursing with fix_fields on each element, and
fix_fields returns every string unchanged, so a sigil string that is a
direct list element is not rewritten.  On the example, "fooBar" resolves to
"foo_bar" and the sigil is reattached. -/
theorem c4_amended_sigil_values :
    (∀ k s, startsDollar s = true →
        fix_fields (.obj [(k, .str s)]) =
          .obj [(fixKey k, .str (mkDollar (mapKeyName (strTail s))))]) ∧
    (∀ l, fix_fields (.arr l) = .arr (l.map fix_fields)) ∧
    (∀ s, fix_fields (.str s) = .str s) ∧
    mkDollar (mapKeyName (strTail "$fooBar")) = "$foo_bar" := by
  refine ⟨fun k s h => ?_, fun l => by rw [fix_fields_arr, fixArr_eq_map],
    fun s => rfl, by rfl⟩
  rw [fix_fields_obj, fixObj_singleton, entryFix_str, if_pos h]

/-- Witness for C4 amended at concrete inputs: "$fooBar" as a dict value
becomes "$foo_bar", while "$fooBar" as a list element is unchanged. -/
theorem c4_witness :
    fix_fields (.obj [("x", .str "$fooBar")]) = .obj [("x", .str "$foo_bar")] ∧
    fix_fields (.arr [.str "$fooBar"]) = .arr [.str "$fooBar"] := by
  constructor
  · rw [c4_amended_sigil_values.1 "x" "$fooBar" (by rfl)]
    rfl
  · rw [c4_amended_sigil_values.2.1 [.str "$fooBar"]]
    rfl

/-- Counterexample to C6 as stated: the key "a-b" contains a character that
is neither a letter nor a digit; normalization returns it unchanged, and
"a-b" is not snake_case (and is not an operator key). -/
theorem c6_counterexample :
    normalize_field_names (.obj [("a-b", .null)]) = .obj [("a-b", .null)] ∧
    startsDollar "a-b" = false ∧
    isSnake "a-b" = false := ⟨by rfl, rfl, by decide⟩

/-- C6 amended: when every dict key anywhere in the input consists of ASCII
letters, digits and underscores (or is an operator key), every dict key in
the normalized output is an operator key or is in snake_case. -/
theorem c6_amended_snake_keys :
    ∀ T, allKeysOk keyLdusOrOp T = true →
      allKeysOk keySnakeOrOp (normalize_field_names T) = true := by
  intro T
  rw [normalize_field_names]
  induction T using value_induction with
  | hstr s => exact fun _ => rfl
  | hnum n => exact fun _ => rfl
  | hbool b => exact fun _ => rfl
  | hnull => exact fun _ => rfl
  | harr l ih =>
      intro h
      rw [allKeysOk_arr, allKeysArr_iff] at h
      rw [fix_fields_arr, allKeysOk_arr, allKeysArr_iff, fixArr_eq_map]
      intro v hv
      rcases List.mem_map.mp hv with ⟨w, hw, rfl⟩
      exact ih w hw (h w hw)
  | hobj m ih =>
      intro h
      rw [allKeysOk_obj, allKeysObj_iff] at h
      rw [fix_fields_obj, allKeysOk_obj, allKeysObj_iff]
      intro q hq
      rcases fixObj_mem hq with h2 | ⟨p, hp, rfl⟩
      · cases h2
      · constructor
        · have hk := (h p hp).1
          rw [keyLdusOrOp] at hk
          rw [keySnakeOrOp]
          by_cases hd : startsDollar p.1 = true
          · rw [fixKey_op hd, hd, Bool.true_or]
          · rw [Bool.not_eq_true] at hd
            rw [hd, Bool.false_or] at hk
            have hsn : isSnake (mapKeyName p.1) = true :=
              mapKeyName_snake_of_ldus (List.all_eq_true.mp hk)
            have hfk : fixKey p.1 = mapKeyName p.1 := by
              rw [fixKey, hd]
              simp
            rw [hfk, hsn, Bool.or_true]
        · have hsub : allKeysOk keySnakeOrOp (fix_fields p.2) = true :=
            ih p hp (h p hp).2
          cases hv : p.2 with
          | str s => rfl
          | num n => rfl
          | bool b => rfl
          | null => rfl
          | arr l2 =>
              rw [hv] at hsub
              exact hsub
          | obj m2 =>
              rw [hv] at hsub
              exact hsub

/-- Witness for C6 amended at a concrete input: the camelCase key "fooBar"
is turned into the snake_case key "foo_bar". -/
theorem c6_witness :
    allKeysOk keyLdusOrOp (.obj [("fooBar", .num 1)]) = true ∧
    allKeysOk keySnakeOrOp
      (normalize_field_names (.obj [("fooBar", .num 1)])) = true ∧
    normalize_field_names (.obj [("fooBar", .num 1)]) =
      .obj [("foo_bar", .num 1)] :=
  ⟨by rfl, c6_amended_snake_keys _ (by rfl), by rfl⟩

/-- C7: the field-name normalization is idempotent on every tree: a second
pass changes nothing. -/
theorem c7_normalize_idempotent :
    ∀ T, normalize_field_names (normalize_field_names T) =
      normalize_field_names T := by
  intro T
  rw [normalize_field_names, normalize_field_names]
  induction T using value_induction with
  | hstr s => rfl
  | hnum n => rfl
  | hbool b => rfl
  | hnull => rfl
  | harr l ih =>
      rw [fix_fields_arr, fix_fields_arr, fixArr_eq_map, fixArr_eq_map,
        List.map_map]
      congr 1
      refine List.map_congr_left ?_
      intro v hv
      exact ih v hv
  | hobj m ih =>
      rw [fix_fields_obj, fix_fields_obj]
      have hfix : ∀ p ∈ fixObj m [], fixKey p.1 = p.1 ∧ entryFix p.2 = p.2 := by
        intro p hp
        rcases fixObj_mem hp with h | ⟨q, hq, he⟩
        · cases h
        · rw [he]
          exact ⟨fixKey_idem q.1, entryFix_idem (ih q hq)⟩
      have h2 := fixObj_fixed hfix (fixObj_nodup (by rfl))
        (fun p hp q hq => absurd hq (List.not_mem_nil q))
      rw [h2, List.nil_append]

/-- Counterexample to C8 as stated: when two distinct keys of a dict
normalize to the same name, the later entry overwrites the whole processed
value of the earlier one, and any operator keys nested inside the dropped
subtree vanish.  The input below has pairwise distinct keys, so it is a
dict Python can represent; its nested map holds the operator key "$a", yet
the normalized output contains no key "$a" anywhere — in particular not at
the same nesting position. -/
theorem c8_counterexample :
    uniqKeysTree (.obj [("departmentName", .obj [("$a", .num 1)]),
      ("department_name", .null)]) = true ∧
    containsKeyDeep "$a" (.obj [("departmentName", .obj [("$a", .num 1)]),
      ("department_name", .null)]) = true ∧
    normalize_field_names (.obj [("departmentName", .obj [("$a", .num 1)]),
      ("department_name", .null)]) = .obj [("department_name", .null)] ∧
    containsKeyDeep "$a" (normalize_field_names
      (.obj [("departmentName", .obj [("$a", .num 1)]),
        ("department_name", .null)])) = false :=
  ⟨by rfl, by rfl, by rfl, by rfl⟩

/-- C8 amended: provided no two distinct keys of any dict anywhere in the
tree normalize to the same name (so no entry is overwritten; this also
forces the keys of each dict to be pairwise distinct), every entry of every
input dict has a corresponding entry in the output dict at the same
nesting position, operator keys keep their exact key string, and the
correspondence recurses through every value — so operator keys nested
below non-operator keys are preserved as well.  When a collision does
occur, the earlier processed entry is dropped whole, as the counterexample
shows. -/
theorem c8_amended_operator_keys_preserved :
    ∀ T, normKeysDistinct T = true → OpKeysSim T (normalize_field_names T) := by
  intro T
  rw [normalize_field_names]
  induction T using value_induction with
  | hstr s =>
      exact fun _ => opKeysSim_scalar
        ⟨fun l h => Value.noConfusion h, fun m h => Value.noConfusion h⟩
  | hnum n =>
      exact fun _ => opKeysSim_scalar
        ⟨fun l h => Value.noConfusion h, fun m h => Value.noConfusion h⟩
  | hbool b =>
      exact fun _ => opKeysSim_scalar
        ⟨fun l h => Value.noConfusion h, fun m h => Value.noConfusion h⟩
  | hnull =>
      exact fun _ => opKeysSim_scalar
        ⟨fun l h => Value.noConfusion h, fun m h => Value.noConfusion h⟩
  | harr l ih =>
      intro hu
      rw [normKeysDistinct_arr] at hu
      rw [fix_fields_arr, fixArr_eq_map]
      refine opKeysSim_arr (by rw [List.length_map]) ?_
      intro i hi hi'
      have hmem := List.get_mem l i hi
      have hget : (l.map fix_fields).get ⟨i, hi'⟩ = fix_fields (l.get ⟨i, hi⟩) := by
        simp
      rw [hget]
      exact ih _ hmem (normKeysDistinctArr_mem hu hmem)
  | hobj m ih =>
      intro hu
      rw [normKeysDistinct_obj, Bool.and_eq_true] at hu
      rw [fix_fields_obj]
      refine opKeysSim_obj ?_
      intro p hp
      refine ⟨fixKey p.1, entryFix p.2, fixObj_keeps_all hu.1 hp,
        fun hd => fixKey_op hd, ?_⟩
      have hsim : OpKeysSim p.2 (fix_fields p.2) :=
        ih p hp (normKeysDistinctObj_mem hu.2 hp)
      cases hv : p.2 with
      | str s =>
          exact opKeysSim_scalar
            ⟨fun l h => Value.noConfusion h, fun m2 h => Value.noConfusion h⟩
      | num n =>
          exact opKeysSim_scalar
            ⟨fun l h => Value.noConfusion h, fun m2 h => Value.noConfusion h⟩
      | bool b =>
          exact opKeysSim_scalar
            ⟨fun l h => Value.noConfusion h, fun m2 h => Value.noConfusion h⟩
      | null =>
          exact opKeysSim_scalar
            ⟨fun l h => Value.noConfusion h, fun m2 h => Value.noConfusion h⟩
      | arr l2 =>
          rw [hv] at hsim
          exact hsim
      | obj m2 =>
          rw [hv] at hsim
          exact hsim

/-- Witness for C8 amended at a concrete input: in the find filter mapping
"total_price" to the dict with operator key "$gt", the operator key sits
below a non-operator key and survives normalization verbatim. -/
theorem c8_witness :
    normKeysDistinct (.obj [("total_price", .obj [("$gt", .num 5)])]) = true ∧
    OpKeysSim (.obj [("total_price", .obj [("$gt", .num 5)])])
      (normalize_field_names (.obj [("total_price", .obj [("$gt", .num 5)])])) :=
  ⟨by rfl, c8_amended_operator_keys_preserved _ (by rfl)⟩

end ClaudeQueryExecutor
